import Mathlib

/-!
Verification of the Smart-Document-Assistant core pipeline.

This file gives a shallow embedding, in Lean 4, of the offset-preserving
document pipeline of the repository:

* backend/app/services/chunker.py         (IntelligentChunker, DocumentChunk)
* backend/app/services/document_processor.py (DocumentProcessor, TextSegment)
* backend/app/services/pdf_processor.py   (PDFProcessor)
* backend/app/services/rag_service.py     (RAGService.query, citation building)

Modelling conventions:
* Python strings are lists of characters (PyStr).  Python len is List.length.
* Python ints are Lean Int (character offsets, page numbers); loop counters
  that are provably non-negative are Nat.
* External libraries are parameters: the LangChain text splitter is an
  arbitrary function PyStr to List PyStr, pdfplumber page texts are an input
  list (a page where extract_text returned None or an empty string is the
  empty list, both are skipped by the code via the same falsiness test), the
  vector index result is an input list of (chunk, score) pairs and the LLM
  answer is an input string.
* Python floats for relevance scores are modelled as exact rationals; the
  only float operations involved (float(score), passing a score through)
  are exact.  The merge threshold comparison overlap > len * 0.5 is modelled
  as 2 * overlap > len, which is equivalent for every text length below 2^53
  (multiplication of such an integer by 0.5 is exact in IEEE doubles).
* Wall-clock fields (processing_time_ms) and layout fields (bbox, a tuple of
  floats never read by the pipeline) are not modelled.
-/

namespace SDA

/-- A Python string, modelled as its list of characters. -/
abbrev PyStr := List Char

/-- The whitespace test of Python str.strip for the ASCII range: space, tab,
newline, carriage return, vertical tab, form feed. -/
def pyIsSpace (c : Char) : Bool :=
  c = ' ' || c = '\t' || c = '\n' || c = '\r' || c = '\x0b' || c = '\x0c'

/-- Python str.strip: remove whitespace from both ends. -/
def pyStrip (s : PyStr) : PyStr :=
  ((s.dropWhile pyIsSpace).reverse.dropWhile pyIsSpace).reverse

/-- Python s.split with separator a double newline: cut at each leftmost
non-overlapping occurrence of two consecutive newline characters. -/
def splitNN : PyStr → List PyStr
  | [] => [[]]
  | '\n' :: '\n' :: rest => [] :: splitNN rest
  | c :: rest =>
    match splitNN rest with
    | [] => [[c]]
    | h :: t => (c :: h) :: t

/-- Python s.find(needle): index of the first occurrence, none when absent.
Like Python, an empty needle is found at index 0. -/
def pyFind (hay needle : PyStr) : Option Nat :=
  match hay with
  | [] => if needle = [] then some 0 else none
  | _ :: t => if needle.isPrefixOf hay then some 0 else (pyFind t needle).map (· + 1)

/-- TextSegment from document_processor.py (pdf_processor.py declares an
identical dataclass).  The bbox field, a tuple of floats never read by the
pipeline, is not modelled. -/
structure TextSegment where
  text : PyStr
  page_number : Int
  char_start : Int
  char_end : Int
deriving Repr, DecidableEq

instance : Inhabited TextSegment :=
  ⟨{ text := [], page_number := 0, char_start := 0, char_end := 0 }⟩

/-- The flat metadata mapping built for each chunk in chunk_segments: the
dict literal always has exactly these six keys, so it is a record here. -/
structure ChunkMetadata where
  filename : String
  document_id : String
  page : Int
  char_start : Int
  char_end : Int
  chunk_id : String
deriving Repr, DecidableEq

/-- DocumentChunk from chunker.py. -/
structure DocumentChunk where
  chunk_id : String
  text : PyStr
  page_number : Int
  char_start : Int
  char_end : Int
  document_id : String
  chunk_index : Nat
  metadata : ChunkMetadata
deriving Repr, DecidableEq

instance : Inhabited DocumentChunk :=
  ⟨{ chunk_id := "", text := [], page_number := 0, char_start := 0, char_end := 0,
     document_id := "", chunk_index := 0,
     metadata := { filename := "", document_id := "", page := 0, char_start := 0,
                   char_end := 0, chunk_id := "" } }⟩

/-- The chunk identifier format string of chunker.py. -/
def chunkIdOf (document_id : String) (i : Nat) : String :=
  document_id ++ "_chunk_" ++ toString i

/-- One DocumentChunk as built in the body of the inner loop of
chunk_segments (chunker.py lines 95 to 111): absolute positions are the
segment start plus the current cursor, the end adds the chunk text length. -/
def mkChunk (seg : TextSegment) (document_id filename : String)
    (idx : Nat) (offset : Nat) (chunk_text : PyStr) : DocumentChunk :=
  { chunk_id := chunkIdOf document_id idx
    text := chunk_text
    page_number := seg.page_number
    char_start := seg.char_start + offset
    char_end := seg.char_start + offset + chunk_text.length
    document_id := document_id
    chunk_index := idx
    metadata :=
      { filename := filename
        document_id := document_id
        page := seg.page_number
        char_start := seg.char_start + offset
        char_end := seg.char_start + offset + chunk_text.length
        chunk_id := chunkIdOf document_id idx } }

/-- Cursor update of chunker.py lines 116 to 123: search for the chunk text
in the unconsumed slice; on a hit advance past the match, otherwise advance
by the chunk text length. -/
def advanceOffset (segText : PyStr) (offset : Nat) (chunk_text : PyStr) : Nat :=
  match pyFind (segText.drop offset) chunk_text with
  | some m => offset + m + chunk_text.length
  | none => offset + chunk_text.length

/-- Inner loop of chunk_segments over the splitter output of one segment,
carrying the running chunk index and the segment-local cursor. -/
def chunkSegmentLoop (seg : TextSegment) (document_id filename : String) :
    List PyStr → Nat → Nat → List DocumentChunk
  | [], _, _ => []
  | t :: ts, idx, offset =>
    mkChunk seg document_id filename idx offset t ::
      chunkSegmentLoop seg document_id filename ts (idx + 1)
        (advanceOffset seg.text offset t)

/-- Outer loop of chunk_segments over the segments; the running index is
advanced by the number of chunks the splitter produced for the segment. -/
def chunkSegmentsLoop (split : PyStr → List PyStr) (document_id filename : String) :
    List TextSegment → Nat → List DocumentChunk
  | [], _ => []
  | seg :: rest, idx =>
    chunkSegmentLoop seg document_id filename (split seg.text) idx 0 ++
      chunkSegmentsLoop split document_id filename rest (idx + (split seg.text).length)

/-- IntelligentChunker.chunk_segments, parameterised by the external
LangChain splitter. -/
def chunk_segments (split : PyStr → List PyStr) (segments : List TextSegment)
    (document_id filename : String) : List DocumentChunk :=
  chunkSegmentsLoop split document_id filename segments 0

/-- The cursor value reached after the chunker has consumed the given list
of chunk texts for a segment whose text is segText, starting from cursor 0. -/
def cursorAfter (segText : PyStr) (ts : List PyStr) : Nat :=
  ts.foldl (fun cur t => advanceOffset segText cur t) 0

/-! ### Extractors (document_processor.py, pdf_processor.py) -/

/-- Paragraph loop of the PDF page body (document_processor.py lines 108 to
119, and identically pdf_processor.py lines 65 to 76): paragraphs whose
stripped text is non-empty are emitted with start base + offset and end
base + offset + untrimmed length; the offset advances by the untrimmed
length plus two for every paragraph, the skipped ones included. -/
def paraSegs (pageNum : Nat) (base : Nat) : List PyStr → Nat → List TextSegment
  | [], _ => []
  | para :: rest, off =>
    if pyStrip para = [] then paraSegs pageNum base rest (off + para.length + 2)
    else
      { text := pyStrip para
        page_number := (pageNum : Int)
        char_start := ((base + off : Nat) : Int)
        char_end := ((base + off + para.length : Nat) : Int) } ::
        paraSegs pageNum base rest (off + para.length + 2)

/-- Page loop of the PDF extractors: pages without text are skipped without
advancing the document offset; otherwise the page text is split on blank
lines, the page-local offset restarts at 0, and the document-wide offset
then advances by the full page text length. -/
def extractPdfLoop : List PyStr → Nat → Nat → List TextSegment
  | [], _, _ => []
  | p :: rest, pageNum, docOff =>
    if p = [] then extractPdfLoop rest (pageNum + 1) docOff
    else
      paraSegs pageNum docOff (splitNN p) 0 ++
        extractPdfLoop rest (pageNum + 1) (docOff + p.length)

/-- DocumentProcessor._extract_from_pdf, as a function of the page texts
returned by pdfplumber (a page whose extract_text gave None or an empty
string is the empty list). -/
def extract_from_pdf (pages : List PyStr) : List TextSegment :=
  extractPdfLoop pages 1 0

/-- PDFProcessor.extract_text_with_positions of pdf_processor.py: its
segment-producing loop is character for character the one of
DocumentProcessor._extract_from_pdf. -/
def pdfProcessorExtract (pages : List PyStr) : List TextSegment :=
  extractPdfLoop pages 1 0

/-- Paragraph loop shared verbatim by _extract_from_txt
(document_processor.py lines 188 to 199) and _extract_from_markdown (lines
245 to 256): the emitted text and char_end both use the trimmed paragraph
(char_end = offset + len(para.strip())), and the offset advances by the
untrimmed length plus two only for emitted paragraphs (the advance sits
inside the emission branch). -/
def trimParaSegs : List PyStr → Nat → List TextSegment
  | [], _ => []
  | para :: rest, off =>
    if pyStrip para = [] then trimParaSegs rest off
    else
      { text := pyStrip para
        page_number := 1
        char_start := ((off : Nat) : Int)
        char_end := ((off + (pyStrip para).length : Nat) : Int) } ::
        trimParaSegs rest (off + para.length + 2)

/-- DocumentProcessor._extract_from_txt as a function of the file content:
split the content on blank lines and run the trimmed paragraph loop from
offset 0. -/
def extract_from_txt (content : PyStr) : List TextSegment :=
  trimParaSegs (splitNN content) 0

/-- DocumentProcessor._extract_from_markdown as a function of the raw file
content: the segment loop (lines 242 to 256) splits the raw markdown on
blank lines and is character for character the TXT loop; the HTML
conversion above it only feeds a local variable the loop overwrites. -/
def extract_from_markdown (content : PyStr) : List TextSegment :=
  trimParaSegs (splitNN content) 0

/-- Paragraph loop of _extract_from_docx (document_processor.py lines 148
to 159), as a function of the paragraph texts python-docx yields: emitted
text, char_end and the offset advance all use the trimmed text, and the
advance happens only for emitted paragraphs. -/
def docxLoop : List PyStr → Nat → List TextSegment
  | [], _ => []
  | p :: rest, off =>
    if pyStrip p = [] then docxLoop rest off
    else
      { text := pyStrip p
        page_number := 1
        char_start := ((off : Nat) : Int)
        char_end := ((off + (pyStrip p).length : Nat) : Int) } ::
        docxLoop rest (off + (pyStrip p).length + 2)

/-- DocumentProcessor._extract_from_docx as a function of the paragraph
texts of the document. -/
def extract_from_docx (paras : List PyStr) : List TextSegment :=
  docxLoop paras 0

/-- Python sep.join(parts). -/
def joinSep (sep : PyStr) : List PyStr → PyStr
  | [] => []
  | [x] => x
  | x :: y :: rest => x ++ sep ++ joinSep sep (y :: rest)

/-- Slide loop of _extract_from_pptx (document_processor.py lines 284 to
304), as a function of the shape texts of each slide: the shape texts are
joined with newlines and stripped; empty slides are skipped but still
advance the slide number; the offset advances by the combined length plus
two only for emitted slides. -/
def pptxLoop : List (List PyStr) → Nat → Nat → List TextSegment
  | [], _, _ => []
  | slide :: rest, num, off =>
    if pyStrip (joinSep ['\n'] slide) = [] then pptxLoop rest (num + 1) off
    else
      { text := pyStrip (joinSep ['\n'] slide)
        page_number := (num : Int)
        char_start := ((off : Nat) : Int)
        char_end := ((off + (pyStrip (joinSep ['\n'] slide)).length : Nat) : Int) } ::
        pptxLoop rest (num + 1) (off + (pyStrip (joinSep ['\n'] slide)).length + 2)

/-- DocumentProcessor._extract_from_pptx as a function of the shape texts
per slide. -/
def extract_from_pptx (slides : List (List PyStr)) : List TextSegment :=
  pptxLoop slides 1 0

/-- Row preparation of _extract_from_excel (both branches): each row of
cell strings is joined with a fixed delimiter and rows whose stripped join
is empty are dropped (document_processor.py lines 341 to 344 and 363 to
366).  Cells are taken as the strings str(cell) produces, None as the
empty string. -/
def keptRows (rows : List (List PyStr)) : List PyStr :=
  (rows.map fun cells => joinSep " | ".toList cells).filter fun r => !(pyStrip r).isEmpty

/-- Sheet loop of the xlsx branch of _extract_from_excel
(document_processor.py lines 337 to 356): a sheet with kept rows emits one
segment whose text carries a sheet-name prefix, while char_end and the
offset advance use only the combined row text length; sheets without rows
still advance the sheet number. -/
def xlsxLoop : List (PyStr × List (List PyStr)) → Nat → Nat → List TextSegment
  | [], _, _ => []
  | (name, rows) :: rest, num, off =>
    if keptRows rows = [] then xlsxLoop rest (num + 1) off
    else
      { text := "Sheet: ".toList ++ name ++ '\n' :: joinSep ['\n'] (keptRows rows)
        page_number := (num : Int)
        char_start := ((off : Nat) : Int)
        char_end := ((off + (joinSep ['\n'] (keptRows rows)).length : Nat) : Int) } ::
        xlsxLoop rest (num + 1) (off + (joinSep ['\n'] (keptRows rows)).length + 2)

/-- The xlsx branch of DocumentProcessor._extract_from_excel as a function
of the sheets: each sheet is its name and its rows of cell strings. -/
def extract_from_xlsx (sheets : List (PyStr × List (List PyStr))) : List TextSegment :=
  xlsxLoop sheets 1 0

/-- The csv branch of DocumentProcessor._extract_from_excel
(document_processor.py lines 358 to 377), as a function of the parsed csv
rows: at most one segment, holding all kept rows joined with newlines,
spanning from 0. -/
def extract_from_csv (rows : List (List PyStr)) : List TextSegment :=
  if keptRows rows = [] then []
  else
    [{ text := joinSep ['\n'] (keptRows rows)
       page_number := 1
       char_start := 0
       char_end := ((joinSep ['\n'] (keptRows rows)).length : Int) }]

/-- The text parts the HTML handler of _extract_from_html collects
(document_processor.py lines 406 to 410), as a function of the data
strings seen outside script and style elements: each is stripped and empty
ones are dropped. -/
def htmlTextParts (datas : List PyStr) : List PyStr :=
  (datas.map pyStrip).filter fun t => !t.isEmpty

/-- Segment loop of _extract_from_html (document_processor.py lines 428 to
438): each non-empty collected part becomes a segment and the offset
advances by its length plus two, only for emitted parts. -/
def htmlLoop : List PyStr → Nat → List TextSegment
  | [], _ => []
  | t :: rest, off =>
    if t = [] then htmlLoop rest off
    else
      { text := t
        page_number := 1
        char_start := ((off : Nat) : Int)
        char_end := ((off + t.length : Nat) : Int) } ::
        htmlLoop rest (off + t.length + 2)

/-- DocumentProcessor._extract_from_html as a function of the data strings
the parser delivers outside script and style elements. -/
def extract_from_html (datas : List PyStr) : List TextSegment :=
  htmlLoop (htmlTextParts datas) 0

/-! ### Format dispatch (document_processor.py lines 23 to 78) -/

/-- The SUPPORTED_EXTENSIONS dict of DocumentProcessor, as the list of its
key-value pairs. -/
def SUPPORTED_EXTENSIONS : List (String × String) :=
  [(".pdf", "PDF Document"),
   (".docx", "Word Document"),
   (".doc", "Word Document (Legacy)"),
   (".txt", "Text File"),
   (".md", "Markdown File"),
   (".pptx", "PowerPoint Presentation"),
   (".xlsx", "Excel Spreadsheet"),
   (".csv", "CSV File"),
   (".html", "HTML Document"),
   (".htm", "HTML Document"),
   (".rtf", "Rich Text Format"),
   (".odt", "OpenDocument Text")]

/-- DocumentProcessor.is_supported as a function of the lower-cased file
extension (the source computes the extension from the path the same way as
extract_text_with_positions does). -/
def is_supported (ext : String) : Bool :=
  (SUPPORTED_EXTENSIONS.map Prod.fst).contains ext

/-- The extraction routine the dispatch of extract_text_with_positions
reaches. -/
inductive ExtractorRoutine where
  | pdf
  | docx
  | txt
  | markdown
  | pptx
  | excel
  | html
deriving Repr, DecidableEq

/-- The dispatch chain of extract_text_with_positions over the lower-cased
extension: a recognised extension reaches its routine, anything else raises
ValueError with an unsupported-format message. -/
def dispatch (ext : String) : Except String ExtractorRoutine :=
  if ext = ".pdf" then .ok .pdf
  else if ext = ".docx" ∨ ext = ".doc" then .ok .docx
  else if ext = ".txt" then .ok .txt
  else if ext = ".md" then .ok .markdown
  else if ext = ".pptx" then .ok .pptx
  else if ext = ".xlsx" ∨ ext = ".csv" then .ok .excel
  else if ext = ".html" ∨ ext = ".htm" then .ok .html
  else .error ("Unsupported file format: " ++ ext)

/-! ### Chunk merger (chunker.py lines 128 to 167) -/

/-- The sort key comparison of merge_overlapping_chunks: sorted by the pair
(page_number, char_start), lexicographically. -/
def mergeKey (a b : DocumentChunk) : Prop :=
  a.page_number < b.page_number ∨
    (a.page_number = b.page_number ∧ a.char_start ≤ b.char_start)

instance : DecidableRel mergeKey := fun a b => by
  unfold mergeKey
  exact inferInstance

instance : IsTotal DocumentChunk mergeKey :=
  ⟨fun a b => by unfold mergeKey; omega⟩

instance : IsTrans DocumentChunk mergeKey :=
  ⟨fun a b c hab hbc => by unfold mergeKey at *; omega⟩

/-- Python sorted with key (page_number, char_start) is a stable sort;
insertion sort with the pulled-back non-strict comparison is stable in the
same way. -/
def sortChunks (cs : List DocumentChunk) : List DocumentChunk :=
  cs.insertionSort mergeKey

/-- The overlap size computed at chunker.py lines 153 to 155. -/
def overlapSize (last cur : DocumentChunk) : Int :=
  min cur.char_end last.char_end - cur.char_start

/-- The merge test of chunker.py lines 150 to 158: same page, overlapping
ranges, and overlap above half the current text length.  The float
comparison overlap > len * 0.5 is the exact 2 * overlap > len for every
text length below 2^53. -/
def shouldMerge (last cur : DocumentChunk) : Prop :=
  cur.page_number = last.page_number ∧
    cur.char_start < last.char_end ∧
    2 * overlapSize last cur > (cur.text.length : Int)

instance : DecidablePred fun p : DocumentChunk × DocumentChunk => shouldMerge p.1 p.2 :=
  fun p => by unfold shouldMerge; exact inferInstance

instance (last cur : DocumentChunk) : Decidable (shouldMerge last cur) := by
  unfold shouldMerge; exact inferInstance

/-- The in-place extension of the retained chunk (chunker.py lines 160 to
161): append the non-overlapping suffix of the current text, move the end
to the current end.  Inside the merge branch the overlap is positive, so
the Python slice text with a positive start is List.drop of toNat. -/
def mergeInto (last cur : DocumentChunk) : DocumentChunk :=
  { last with
    text := last.text ++ cur.text.drop (overlapSize last cur).toNat
    char_end := cur.char_end }

/-- Walk of the sorted tail: the retained accumulator is front, the chunk
open for merging is last (merged[-1] in the source). -/
def mergeLoop : List DocumentChunk → List DocumentChunk → DocumentChunk → List DocumentChunk
  | [], front, last => front ++ [last]
  | cur :: rest, front, last =>
    if shouldMerge last cur then mergeLoop rest front (mergeInto last cur)
    else mergeLoop rest (front ++ [last]) cur

/-- The body of merge_overlapping_chunks after sorting: an empty input
returns empty, otherwise the walk starts with the first sorted chunk
retained. -/
def mergeCore : List DocumentChunk → List DocumentChunk
  | [] => []
  | c :: rest => mergeLoop rest [] c

/-- IntelligentChunker.merge_overlapping_chunks, value semantics: the list
the function returns. -/
def merge_overlapping_chunks (cs : List DocumentChunk) : List DocumentChunk :=
  mergeCore (sortChunks cs)

/-! ### Merger with object identity

Python sorted returns a new list holding the same chunk objects, and the
merge branch mutates the retained object (last_merged.text, or
last_merged.char_end, is assigned).  To talk about what happens to the
caller's chunk objects, the heap model below identifies each input object
with its index in the input list: the state of all input objects is the
list heap, the sorted list is a list of indices, and the merge branch
writes the extended chunk back into the heap. -/

/-- The sort comparison pulled back to indices into the input list. -/
def idxKey (cs : List DocumentChunk) (i j : Nat) : Prop :=
  mergeKey (cs.getD i default) (cs.getD j default)

instance (cs : List DocumentChunk) : DecidableRel (idxKey cs) := fun i j => by
  unfold idxKey; exact inferInstance

/-- Stable argsort of the input list by (page_number, char_start). -/
def sortIndices (cs : List DocumentChunk) : List Nat :=
  (List.range cs.length).insertionSort (idxKey cs)

/-- Heap-passing version of the merge walk: on a merge the retained object
at index j is updated in place, otherwise the current index is appended.
Returns the final heap and the indices of the retained objects. -/
def mergeHeapLoop : List Nat → List DocumentChunk → List Nat → Nat →
    List DocumentChunk × List Nat
  | [], heap, front, j => (heap, front ++ [j])
  | i :: rest, heap, front, j =>
    if shouldMerge (heap.getD j default) (heap.getD i default) then
      mergeHeapLoop rest (heap.set j (mergeInto (heap.getD j default) (heap.getD i default)))
        front j
    else mergeHeapLoop rest heap (front ++ [j]) i

/-- merge_overlapping_chunks with its effect on the caller's objects: the
first component is the returned merged list (the values of the retained
objects after the walk), the second is the final state of every input
object, in input order. -/
def merge_with_effects (cs : List DocumentChunk) : List DocumentChunk × List DocumentChunk :=
  match sortIndices cs with
  | [] => ([], cs)
  | j :: rest =>
    let r := mergeHeapLoop rest cs [] j
    (r.2.map fun i => r.1.getD i default, r.1)

/-- Every chunk field except the two the merge branch assigns (text and
char_end). -/
def chunkFrame (c : DocumentChunk) : String × Int × Int × String × Nat × ChunkMetadata :=
  (c.chunk_id, c.page_number, c.char_start, c.document_id, c.chunk_index, c.metadata)

/-! ### Citation reconstruction (rag_service.py lines 61 to 146) -/

/-- Citation from models/schemas.py; the snippet is a Python string, the
relevance score a float modelled as an exact rational. -/
structure Citation where
  chunk_id : String
  text : PyStr
  page_number : Int
  char_start : Int
  char_end : Int
  relevance_score : ℚ
deriving Repr, DecidableEq

/-- QueryResponse from models/schemas.py; the wall-clock field
processing_time_ms is not modelled. -/
structure QueryResponse where
  answer : String
  citations : List Citation
  question : String
deriving Repr, DecidableEq

/-- ASCII apostrophe, written by code point. -/
def apostropheChar : Char := Char.ofNat 39

/-- The fixed answer returned when retrieval is empty (rag_service.py line
93). -/
def NO_INFO_ANSWER : String :=
  "I couldn" ++ String.singleton apostropheChar ++
    "t find any relevant information in the documents to answer this question."

/-- One Citation as built at rag_service.py lines 126 to 133: the snippet
is the text cut to 200 characters with an ellipsis appended when longer,
the position fields are copied from the chunk, the score passes through
float() unchanged. -/
def mkCitation (p : DocumentChunk × ℚ) : Citation :=
  { chunk_id := p.1.chunk_id
    text := if 200 < p.1.text.length then p.1.text.take 200 ++ ['.', '.', '.'] else p.1.text
    page_number := p.1.page_number
    char_start := p.1.char_start
    char_end := p.1.char_end
    relevance_score := p.2 }

/-- RAGService.query, as a function of the similarity-search result and the
LLM answer (both external): an empty result returns the fixed no-info
response with no citations, otherwise one citation per retrieved pair. -/
def query (question : String) (results : List (DocumentChunk × ℚ))
    (llmAnswer : String) : QueryResponse :=
  if results.isEmpty then
    { answer := NO_INFO_ANSWER, citations := [], question := question }
  else
    { answer := llmAnswer, citations := results.map mkCitation, question := question }

/-! ### Derived measures and predicates used by the statements -/

/-- Total number of chunks the splitter yields over a segment list. -/
def totalChunks (split : PyStr → List PyStr) (segs : List TextSegment) : Nat :=
  (segs.map fun s => (split s.text).length).sum

/-- A chunk whose character span agrees exactly with its text length, as
every chunk fresh from the chunker does. -/
def WFChunk (c : DocumentChunk) : Prop :=
  c.char_end = c.char_start + (c.text.length : Int)

instance (c : DocumentChunk) : Decidable (WFChunk c) := by
  unfold WFChunk; exact inferInstance

/-- Stability relation between a retained chunk A and the chunk B right
after it in the merged list: however B later grows by absorbing well-formed
chunks, the pair can never satisfy the merge test again. -/
def GoodPair (a b : DocumentChunk) : Prop :=
  (b.page_number = a.page_number ∧ b.char_start < a.char_end) →
    (2 * (a.char_end - b.char_start) ≤ (b.text.length : Int) ∨
      (b.text.length = 0 ∧ b.char_end ≤ b.char_start))

/-! ### Concrete inputs used by counterexamples and witnesses -/

/-- Chunk builder for the concrete merger inputs; text is a run of one
repeated character, so the span-length relation is controlled exactly. -/
def exChunk (start e : Int) (n : Nat) (ch : Char) : DocumentChunk :=
  { chunk_id := "c", text := List.replicate n ch, page_number := 1,
    char_start := start, char_end := e, document_id := "d", chunk_index := 0,
    metadata := { filename := "f", document_id := "d", page := 1,
                  char_start := start, char_end := e, chunk_id := "c" } }

/-- A segment whose text holds the chunk text cd at offset 3. -/
def c1Seg : TextSegment :=
  { text := "ab cd".toList, page_number := 1, char_start := 0, char_end := 5 }

/-- A splitter returning one whitespace-normalised chunk, found at a
positive offset in the segment text. -/
def c1Split : PyStr → List PyStr := fun _ => [['c', 'd']]

/-- A splitter cutting a text into an initial piece of three characters and
a final piece that repeats one character of overlap. -/
def exSplitOverlap : PyStr → List PyStr := fun t => [t.take 3, t.drop 2]

/-- Merger input on which a second merge pass still merges: the middle
chunk has a char span much shorter than its text (span 1, text length 40),
which the claim quantifier admits. -/
def c7Input : List DocumentChunk :=
  [exChunk 0 100 5 'a', exChunk 10 11 40 'b', exChunk 10 200 1 'z']

/-- Well-formed merger input on which one merge fires: the second chunk
overlaps the first by 10 of its 15 characters. -/
def c7WfInput : List DocumentChunk :=
  [exChunk 0 20 20 'a', exChunk 10 25 15 'b']

/-- Merger input with one significant overlap: running the merger mutates
the first input chunk in place. -/
def c4Input : List DocumentChunk :=
  [exChunk 0 10 10 'a', exChunk 2 12 10 'b']

/-- Two pages of text used by the extractor witnesses. -/
def c2Pages : List PyStr := ["First para.\n\nSecond.".toList, "Next page".toList]

/-- A retrieval result of one pair used by the citation witnesses. -/
def c5Result : List (DocumentChunk × ℚ) := [(exChunk 0 10 10 'a', 1 / 2)]

/-- Whether the dispatch of extract_text_with_positions reaches an
extraction routine (rather than the unsupported-format error branch). -/
def dispatchOk (ext : String) : Bool :=
  match dispatch ext with
  | .ok _ => true
  | .error _ => false

/-- Total advance of the page-local offset over a paragraph list: each
paragraph contributes its untrimmed length plus two. -/
def sumAdv (paras : List PyStr) : Nat :=
  (paras.map fun q => q.length + 2).sum

end SDA

namespace SDA

/-! ## Theorems -/

/-! ### Chunker bookkeeping lemmas -/

theorem chunkSegmentLoop_length (seg : TextSegment) (d f : String) (ts : List PyStr) :
    ∀ idx off, (chunkSegmentLoop seg d f ts idx off).length = ts.length := by
  induction ts with
  | nil => intro idx off; rfl
  | cons t ts ih => intro idx off; simp [chunkSegmentLoop, ih]

theorem chunkSegmentLoop_getElem (seg : TextSegment) (d f : String) (ts : List PyStr) :
    ∀ idx off i,
      (chunkSegmentLoop seg d f ts idx off)[i]? =
        (ts[i]?).map fun t =>
          mkChunk seg d f (idx + i) (List.foldl (advanceOffset seg.text) off (ts.take i)) t := by
  induction ts with
  | nil => intro idx off i; simp [chunkSegmentLoop]
  | cons t ts ih =>
    intro idx off i
    cases i with
    | zero => simp [chunkSegmentLoop]
    | succ n =>
      simp only [chunkSegmentLoop, List.getElem?_cons_succ, ih (idx + 1) _ n,
        List.take_succ_cons, List.foldl_cons]
      have : idx + 1 + n = idx + (n + 1) := by omega
      rw [this]

theorem chunkSegmentLoop_map_index (seg : TextSegment) (d f : String) (ts : List PyStr) :
    ∀ idx off,
      (chunkSegmentLoop seg d f ts idx off).map DocumentChunk.chunk_index =
        List.range' idx ts.length := by
  induction ts with
  | nil => intro idx off; rfl
  | cons t ts ih => intro idx off; simp [chunkSegmentLoop, ih, mkChunk, List.range'_succ]

theorem chunkSegmentLoop_mem (seg : TextSegment) (d f : String) (ts : List PyStr) :
    ∀ idx off c, c ∈ chunkSegmentLoop seg d f ts idx off →
      ∃ i o t, c = mkChunk seg d f i o t := by
  induction ts with
  | nil => intro idx off c hc; simp [chunkSegmentLoop] at hc
  | cons t ts ih =>
    intro idx off c hc
    simp only [chunkSegmentLoop, List.mem_cons] at hc
    rcases hc with hc | hc
    · exact ⟨idx, off, t, hc⟩
    · exact ih _ _ c hc

theorem chunkSegmentsLoop_map_index (split : PyStr → List PyStr) (d f : String)
    (segs : List TextSegment) :
    ∀ idx,
      (chunkSegmentsLoop split d f segs idx).map DocumentChunk.chunk_index =
        List.range' idx (totalChunks split segs) := by
  induction segs with
  | nil => intro idx; rfl
  | cons seg segs ih =>
    intro idx
    simp only [chunkSegmentsLoop, List.map_append, chunkSegmentLoop_map_index, ih,
      totalChunks, List.map_cons, List.sum_cons]
    rw [List.range'_append_1, Nat.add_comm]

theorem chunkSegmentsLoop_length (split : PyStr → List PyStr) (d f : String)
    (segs : List TextSegment) (idx : Nat) :
    (chunkSegmentsLoop split d f segs idx).length = totalChunks split segs := by
  have h := congrArg List.length (chunkSegmentsLoop_map_index split d f segs idx)
  simpa using h

theorem chunkSegmentsLoop_mem (split : PyStr → List PyStr) (d f : String)
    (segs : List TextSegment) :
    ∀ idx c, c ∈ chunkSegmentsLoop split d f segs idx →
      ∃ seg i o t, c = mkChunk seg d f i o t := by
  induction segs with
  | nil => intro idx c hc; simp [chunkSegmentsLoop] at hc
  | cons seg segs ih =>
    intro idx c hc
    simp only [chunkSegmentsLoop, List.mem_append] at hc
    rcases hc with hc | hc
    · obtain ⟨i, o, t, ht⟩ := chunkSegmentLoop_mem seg d f _ _ _ c hc
      exact ⟨seg, i, o, t, ht⟩
    · exact ih _ c hc

theorem chunkSegmentsLoop_chunkId (split : PyStr → List PyStr) (d f : String)
    (segs : List TextSegment) (idx : Nat) (c : DocumentChunk)
    (hc : c ∈ chunkSegmentsLoop split d f segs idx) :
    c.chunk_id = chunkIdOf d c.chunk_index := by
  obtain ⟨seg, i, o, t, ht⟩ := chunkSegmentsLoop_mem split d f segs idx c hc
  subst ht
  rfl

theorem chunkSegments_map_chunkId (split : PyStr → List PyStr) (d f : String)
    (segs : List TextSegment) :
    (chunk_segments split segs d f).map DocumentChunk.chunk_id =
      (List.range (chunk_segments split segs d f).length).map (chunkIdOf d) := by
  have hcongr :
      (chunk_segments split segs d f).map DocumentChunk.chunk_id =
        (chunk_segments split segs d f).map fun c => chunkIdOf d c.chunk_index :=
    List.map_congr_left fun c hc => chunkSegmentsLoop_chunkId split d f segs 0 c hc
  rw [hcongr]
  have h2 : ∀ l : List DocumentChunk,
      l.map (fun c => chunkIdOf d c.chunk_index) =
        (l.map DocumentChunk.chunk_index).map (chunkIdOf d) := fun l => by
    rw [List.map_map]; rfl
  rw [h2, show chunk_segments split segs d f = chunkSegmentsLoop split d f segs 0 from rfl,
    chunkSegmentsLoop_map_index, List.range_eq_range', chunkSegmentsLoop_length]

/-! ### Claim C1 -/

/-- C1, counterexample: the first (and only) chunk text cd is found at
offset 3 of the unconsumed slice of the segment text ab cd, so the claimed
formula segment.char_start + cursor + offsetOfMatch gives 3, but the code
assigns char_start before searching: the produced chunk has char_start 0. -/
theorem spec_c1_counterexample :
    pyFind (c1Seg.text.drop 0) ['c', 'd'] = some 3 ∧
    c1Split c1Seg.text = [['c', 'd']] ∧
    (chunk_segments c1Split [c1Seg] "doc" "file").map DocumentChunk.char_start = [0] ∧
    c1Seg.char_start + (0 : Int) + 3 ≠ 0 := by
  decide

/-- C1 (amended): the i-th chunk of a segment gets char_start equal to
segment.char_start plus the cursor value before the search (the found
offset does not enter char_start), char_end adds the chunk text length,
and the cursor advances past the match when the text is found, by exactly
the text length when it is not; no case raises. -/
theorem spec_c1_amended (split : PyStr → List PyStr) (seg : TextSegment) (d f : String)
    (i : Nat) (hi : i < (split seg.text).length) :
    ((chunk_segments split [seg] d f)[i]?).map (fun c => (c.char_start, c.char_end)) =
      some (seg.char_start + (cursorAfter seg.text ((split seg.text).take i) : Int),
        seg.char_start + (cursorAfter seg.text ((split seg.text).take i) : Int) +
          ((((split seg.text)[i]?).getD []).length : Int)) ∧
    (∀ cur t m, pyFind (seg.text.drop cur) t = some m →
        advanceOffset seg.text cur t = cur + m + t.length) ∧
    (∀ cur t, pyFind (seg.text.drop cur) t = none →
        advanceOffset seg.text cur t = cur + t.length) := by
  refine ⟨?_, ?_, ?_⟩
  · have h1 : chunk_segments split [seg] d f = chunkSegmentLoop seg d f (split seg.text) 0 0 := by
      simp [chunk_segments, chunkSegmentsLoop]
    rw [h1, chunkSegmentLoop_getElem, List.getElem?_eq_getElem hi]
    simp [mkChunk, cursorAfter]
  · intro cur t m hm
    unfold advanceOffset
    rw [hm]
  · intro cur t hm
    unfold advanceOffset
    rw [hm]

/-- Witness for the amended C1 at the concrete segment and splitter of the
counterexample, instantiated at chunk index 0. -/
theorem spec_c1_amended_witness :
    0 < (c1Split c1Seg.text).length ∧
    ((chunk_segments c1Split [c1Seg] "doc" "file")[0]?).map (fun c => (c.char_start, c.char_end)) =
      some (0, 2) := by
  refine ⟨by decide, ?_⟩
  have h := (spec_c1_amended c1Split c1Seg "doc" "file" 0 (by decide)).1
  rw [h]
  decide

/-! ### Claim C3 -/

/-- C3: the SUPPORTED_EXTENSIONS table declares .rtf and .odt supported,
and is_supported answers true for them, yet the dispatch chain of
extract_text_with_positions has no branch for either and raises the
unsupported-format ValueError; so reaching an extractor is not equivalent
to being in the supported set. -/
theorem spec_c3_bug :
    is_supported ".rtf" = true ∧
    dispatch ".rtf" = Except.error ("Unsupported file format: " ++ ".rtf") ∧
    is_supported ".odt" = true ∧
    dispatch ".odt" = Except.error ("Unsupported file format: " ++ ".odt") ∧
    dispatchOk ".rtf" ≠ is_supported ".rtf" ∧
    dispatchOk ".odt" ≠ is_supported ".odt" := by
  refine ⟨rfl, rfl, rfl, rfl, by decide, by decide⟩

/-! ### Claim C5 -/

/-- C5: each citation built by query copies page_number, char_start,
char_end and the raw score from the retrieved pair, and its text is the
chunk text verbatim when at most 200 characters, else the first 200
characters with an ellipsis appended. -/
theorem spec_c5 (q : String) (res : List (DocumentChunk × ℚ)) (ans : String)
    (i : Nat) (chunk : DocumentChunk) (score : ℚ)
    (hres : res[i]? = some (chunk, score)) :
    ((query q res ans).citations)[i]? = some (mkCitation (chunk, score)) ∧
    (mkCitation (chunk, score)).text =
      (if chunk.text.length ≤ 200 then chunk.text
       else chunk.text.take 200 ++ ['.', '.', '.']) ∧
    (mkCitation (chunk, score)).page_number = chunk.page_number ∧
    (mkCitation (chunk, score)).char_start = chunk.char_start ∧
    (mkCitation (chunk, score)).char_end = chunk.char_end ∧
    (mkCitation (chunk, score)).relevance_score = score := by
  have hne : ¬res.isEmpty = true := by
    rw [List.isEmpty_iff]
    intro h
    subst h
    simp at hres
  refine ⟨?_, ?_, rfl, rfl, rfl, rfl⟩
  · unfold query
    rw [if_neg hne]
    simp only [List.getElem?_map, hres, Option.map_some']
  · show (if 200 < chunk.text.length then chunk.text.take 200 ++ ['.', '.', '.']
        else chunk.text) = _
    by_cases h : 200 < chunk.text.length
    · rw [if_pos h, if_neg (by omega)]
    · rw [if_neg h, if_pos (by omega)]

/-- Witness for C5 at a one-pair retrieval result. -/
theorem spec_c5_witness :
    c5Result[0]? = some (exChunk 0 10 10 'a', 1 / 2) ∧
    ((query "q" c5Result "a").citations)[0]? = some (mkCitation (exChunk 0 10 10 'a', 1 / 2)) := by
  exact ⟨rfl, (spec_c5 "q" c5Result "a" 0 (exChunk 0 10 10 'a') (1 / 2) rfl).1⟩

/-! ### Claim C8 -/

/-- C8: on an empty retrieval result, query returns (it does not raise) a
response with no citations and the fixed no-information answer string. -/
theorem spec_c8 (q ans : String) :
    (query q [] ans).citations = [] ∧
    (query q [] ans).answer = NO_INFO_ANSWER ∧
    query q [] ans = { answer := NO_INFO_ANSWER, citations := [], question := q } :=
  ⟨rfl, rfl, rfl⟩

/-! ### Claim C6 -/

/-- C6: the chunk_index values across one run are 0..n-1 in emission order
with no gaps or repeats (one running index across all segments), and every
chunk_id is the documentId followed by _chunk_ and the chunk_index. -/
theorem spec_c6 (split : PyStr → List PyStr) (segs : List TextSegment) (d f : String) :
    (chunk_segments split segs d f).map DocumentChunk.chunk_index =
      List.range (chunk_segments split segs d f).length ∧
    ∀ c ∈ chunk_segments split segs d f,
      c.chunk_id = d ++ "_chunk_" ++ toString c.chunk_index := by
  constructor
  · rw [show chunk_segments split segs d f = chunkSegmentsLoop split d f segs 0 from rfl,
      chunkSegmentsLoop_map_index, List.range_eq_range', chunkSegmentsLoop_length]
  · intro c hc
    exact chunkSegmentsLoop_chunkId split d f segs 0 c hc

/-- Witness for C6: a two-segment input whose splitter yields two chunks
per segment; the head chunk is a member and carries the formatted id. -/
theorem spec_c6_witness :
    ((chunk_segments exSplitOverlap [c1Seg, c1Seg] "doc" "file").headI ∈
      chunk_segments exSplitOverlap [c1Seg, c1Seg] "doc" "file") ∧
    (chunk_segments exSplitOverlap [c1Seg, c1Seg] "doc" "file").headI.chunk_id =
      "doc" ++ "_chunk_" ++
        toString (chunk_segments exSplitOverlap [c1Seg, c1Seg] "doc" "file").headI.chunk_index := by
  refine ⟨by decide, ?_⟩
  exact (spec_c6 exSplitOverlap [c1Seg, c1Seg] "doc" "file").2 _ (by decide)

/-! ### Claim C9 -/

/-- C9: chunk_segments is deterministic; two runs on the same splitter,
segments, documentId and filename agree, chunk ids included, and the ids
are the pure function of the documentId and the running index. -/
theorem spec_c9 (split : PyStr → List PyStr) (segs : List TextSegment) (d f : String)
    (out1 out2 : List DocumentChunk)
    (h1 : out1 = chunk_segments split segs d f)
    (h2 : out2 = chunk_segments split segs d f) :
    out1 = out2 ∧
    out1.map DocumentChunk.chunk_id = out2.map DocumentChunk.chunk_id ∧
    out1.map DocumentChunk.chunk_id = (List.range out1.length).map (chunkIdOf d) := by
  subst h1
  subst h2
  exact ⟨rfl, rfl, chunkSegments_map_chunkId split d f segs⟩

/-- Witness for C9 at the concrete two-segment input. -/
theorem spec_c9_witness :
    chunk_segments exSplitOverlap [c1Seg, c1Seg] "doc" "file" =
      chunk_segments exSplitOverlap [c1Seg, c1Seg] "doc" "file" ∧
    (chunk_segments exSplitOverlap [c1Seg, c1Seg] "doc" "file").map DocumentChunk.chunk_id =
      (chunk_segments exSplitOverlap [c1Seg, c1Seg] "doc" "file").map DocumentChunk.chunk_id ∧
    (chunk_segments exSplitOverlap [c1Seg, c1Seg] "doc" "file").map DocumentChunk.chunk_id =
      (List.range (chunk_segments exSplitOverlap [c1Seg, c1Seg] "doc" "file").length).map
        (chunkIdOf "doc") :=
  spec_c9 exSplitOverlap [c1Seg, c1Seg] "doc" "file" _ _ rfl rfl

/-! ### Claim C10 -/

/-- C10: every chunk has char_end minus char_start exactly its text length,
and its metadata mapping duplicates page, char_start, char_end, chunk_id
and document_id exactly. -/
theorem spec_c10 (split : PyStr → List PyStr) (segs : List TextSegment) (d f : String)
    (c : DocumentChunk) (hc : c ∈ chunk_segments split segs d f) :
    c.char_end = c.char_start + (c.text.length : Int) ∧
    c.metadata.page = c.page_number ∧
    c.metadata.char_start = c.char_start ∧
    c.metadata.char_end = c.char_end ∧
    c.metadata.chunk_id = c.chunk_id ∧
    c.metadata.document_id = c.document_id := by
  obtain ⟨seg, i, o, t, ht⟩ := chunkSegmentsLoop_mem split d f segs 0 c hc
  subst ht
  exact ⟨rfl, rfl, rfl, rfl, rfl, rfl⟩

/-- Witness for C10 at the head chunk of the concrete run. -/
theorem spec_c10_witness :
    ((chunk_segments exSplitOverlap [c1Seg] "doc" "file").headI ∈
      chunk_segments exSplitOverlap [c1Seg] "doc" "file") ∧
    (chunk_segments exSplitOverlap [c1Seg] "doc" "file").headI.char_end =
      (chunk_segments exSplitOverlap [c1Seg] "doc" "file").headI.char_start +
        ((chunk_segments exSplitOverlap [c1Seg] "doc" "file").headI.text.length : Int) := by
  exact ⟨by decide, (spec_c10 exSplitOverlap [c1Seg] "doc" "file" _ (by decide)).1⟩

/-! ### Lemmas on pyStrip -/

theorem dropWhile_head_false (p : Char → Bool) (l : PyStr) (a : Char)
    (h : (l.dropWhile p).head? = some a) : p a = false := by
  have hd := List.head?_dropWhile_not p l
  rw [h] at hd
  exact hd

theorem dropWhile_eq_self_of_head (p : Char → Bool) (l : PyStr)
    (h : ∀ a, l.head? = some a → p a = false) : l.dropWhile p = l := by
  cases l with
  | nil => rfl
  | cons x t =>
    rw [List.dropWhile_cons, if_neg]
    rw [h x rfl]
    simp

theorem getLast?_dropWhile_ne_nil (p : Char → Bool) (l : PyStr) :
    l.dropWhile p ≠ [] → (l.dropWhile p).getLast? = l.getLast? := by
  induction l with
  | nil => intro h; simp [List.dropWhile_nil] at h
  | cons x t ih =>
    intro h
    by_cases hx : p x = true
    · rw [List.dropWhile_cons, if_pos hx] at h ⊢
      rw [ih h]
      have ht : t ≠ [] := by
        intro he
        subst he
        simp [List.dropWhile_nil] at h
      obtain ⟨y, t2, rfl⟩ := List.exists_cons_of_ne_nil ht
      rw [List.getLast?_cons_cons]
    · rw [List.dropWhile_cons, if_neg hx]

theorem pyStrip_head_false (s : PyStr) (a : Char)
    (h : (pyStrip s).head? = some a) : pyIsSpace a = false := by
  unfold pyStrip at h
  rw [List.head?_reverse] at h
  have hne : (s.dropWhile pyIsSpace).reverse.dropWhile pyIsSpace ≠ [] := by
    intro he
    rw [he] at h
    simp at h
  rw [getLast?_dropWhile_ne_nil pyIsSpace _ hne, List.getLast?_reverse] at h
  exact dropWhile_head_false pyIsSpace s a h

theorem pyStrip_getLast_false (s : PyStr) (a : Char)
    (h : (pyStrip s).getLast? = some a) : pyIsSpace a = false := by
  unfold pyStrip at h
  rw [List.getLast?_reverse] at h
  exact dropWhile_head_false pyIsSpace _ a h

theorem pyStrip_idem (s : PyStr) : pyStrip (pyStrip s) = pyStrip s := by
  have h1 : (pyStrip s).dropWhile pyIsSpace = pyStrip s :=
    dropWhile_eq_self_of_head _ _ fun a ha => pyStrip_head_false s a ha
  have h2 : (pyStrip s).reverse.dropWhile pyIsSpace = (pyStrip s).reverse :=
    dropWhile_eq_self_of_head _ _ fun a ha => by
      rw [List.head?_reverse] at ha
      exact pyStrip_getLast_false s a ha
  show (((pyStrip s).dropWhile pyIsSpace).reverse.dropWhile pyIsSpace).reverse = pyStrip s
  rw [h1, h2, List.reverse_reverse]

/-! ### Lemmas on splitNN -/

theorem splitNN_ne_nil (s : PyStr) : splitNN s ≠ [] := by
  rw [splitNN.eq_def]
  split
  · simp
  · simp
  · split
    · simp
    · simp

theorem splitNN_cons_of_tail (c : Char) (rest : PyStr) (q : PyStr) (t : List PyStr)
    (hne : ∀ r : List Char, c = '\n' → rest = '\n' :: r → False)
    (hrest : splitNN rest = q :: t) :
    splitNN (c :: rest) = (c :: q) :: t := by
  rw [splitNN.eq_def]
  split
  · rename_i heq
    exact absurd heq (by simp)
  · rename_i r heq
    obtain ⟨e1, e2⟩ := List.cons.inj heq
    exact (hne r e1 e2).elim
  · rename_i c2 rest2 g heq
    obtain ⟨e1, e2⟩ := List.cons.inj heq
    subst e1
    subst e2
    rw [hrest]

theorem splitNN_sumAdv (s : PyStr) : sumAdv (splitNN s) = s.length + 2 := by
  induction s using splitNN.induct with
  | case1 => simp [splitNN, sumAdv]
  | case2 rest ih =>
    show sumAdv ([] :: splitNN rest) = ('\n' :: '\n' :: rest).length + 2
    simp only [sumAdv, List.map_cons, List.sum_cons, List.length_nil, List.length_cons]
    simp only [sumAdv] at ih
    omega
  | case3 c rest hne hrest ih =>
    exact absurd hrest (splitNN_ne_nil rest)
  | case4 c rest hne q t hrest ih =>
    rw [splitNN_cons_of_tail c rest q t hne hrest]
    rw [hrest] at ih
    simp only [sumAdv, List.map_cons, List.sum_cons, List.length_cons] at ih ⊢
    omega

/-! ### Extractor invariants -/

theorem paraSegs_props (pn base : Nat) (paras : List PyStr) :
    ∀ off : Nat,
      (∀ s ∈ paraSegs pn base paras off,
        pyStrip s.text = s.text ∧ s.text ≠ [] ∧ s.char_start ≤ s.char_end ∧
        ((base : Int) + off ≤ s.char_start) ∧
        (s.char_start + 2 ≤ (base : Int) + off + sumAdv paras)) ∧
      List.Pairwise (fun a b => a.char_start ≤ b.char_start) (paraSegs pn base paras off) := by
  induction paras with
  | nil =>
    intro off
    exact ⟨by intro s hs; simp [paraSegs] at hs, by simp [paraSegs]⟩
  | cons para rest ih =>
    intro off
    have hsum : sumAdv (para :: rest) = para.length + 2 + sumAdv rest := by
      simp [sumAdv]
    by_cases hsp : pyStrip para = []
    · simp only [paraSegs, if_pos hsp]
      refine ⟨?_, (ih (off + para.length + 2)).2⟩
      intro s hs
      obtain ⟨h1, h2, h3, h4, h5⟩ := (ih (off + para.length + 2)).1 s hs
      refine ⟨h1, h2, h3, by push_cast at h4 ⊢; omega, ?_⟩
      rw [hsum]
      push_cast at h5 ⊢
      omega
    · simp only [paraSegs, if_neg hsp]
      constructor
      · intro s hs
        rcases List.mem_cons.mp hs with h | h
        · subst h
          refine ⟨pyStrip_idem para, hsp, ?_, ?_, ?_⟩
          · show ((base + off : Nat) : Int) ≤ ((base + off + para.length : Nat) : Int)
            push_cast
            omega
          · show (base : Int) + off ≤ ((base + off : Nat) : Int)
            push_cast
            omega
          · show ((base + off : Nat) : Int) + 2 ≤ (base : Int) + off + sumAdv (para :: rest)
            rw [hsum]
            push_cast
            omega
        · obtain ⟨h1, h2, h3, h4, h5⟩ := (ih (off + para.length + 2)).1 s h
          refine ⟨h1, h2, h3, by push_cast at h4 ⊢; omega, ?_⟩
          rw [hsum]
          push_cast at h5 ⊢
          omega
      · rw [List.pairwise_cons]
        refine ⟨?_, (ih (off + para.length + 2)).2⟩
        intro b hb
        have h4 := ((ih (off + para.length + 2)).1 b hb).2.2.2.1
        show ((base + off : Nat) : Int) ≤ b.char_start
        push_cast at h4 ⊢
        omega

theorem extractPdfLoop_props (pages : List PyStr) :
    ∀ pn docOff : Nat,
      (∀ s ∈ extractPdfLoop pages pn docOff,
        pyStrip s.text = s.text ∧ s.text ≠ [] ∧ s.char_start ≤ s.char_end ∧
        ((docOff : Int) ≤ s.char_start)) ∧
      List.Pairwise (fun a b => a.char_start ≤ b.char_start)
        (extractPdfLoop pages pn docOff) := by
  induction pages with
  | nil =>
    intro pn docOff
    exact ⟨by intro s hs; simp [extractPdfLoop] at hs, by simp [extractPdfLoop]⟩
  | cons p rest ih =>
    intro pn docOff
    by_cases hp : p = []
    · simp only [extractPdfLoop, if_pos hp]
      exact ih (pn + 1) docOff
    · simp only [extractPdfLoop, if_neg hp]
      have hpara := paraSegs_props pn docOff (splitNN p) 0
      have hrest := ih (pn + 1) (docOff + p.length)
      have hsum := splitNN_sumAdv p
      constructor
      · intro s hs
        rcases List.mem_append.mp hs with h | h
        · obtain ⟨h1, h2, h3, h4, h5⟩ := hpara.1 s h
          refine ⟨h1, h2, h3, ?_⟩
          push_cast at h4 ⊢
          omega
        · obtain ⟨h1, h2, h3, h4⟩ := hrest.1 s h
          refine ⟨h1, h2, h3, ?_⟩
          push_cast at h4 ⊢
          omega
      · rw [List.pairwise_append]
        refine ⟨hpara.2, hrest.2, ?_⟩
        intro a ha b hb
        have h5 := (hpara.1 a ha).2.2.2.2
        have h6 := (hrest.1 b hb).2.2.2
        rw [hsum] at h5
        push_cast at h5 h6 ⊢
        omega

/-! ### More pyStrip lemmas, for the remaining extractor routines -/

theorem mem_dropWhile_of_false (p : Char → Bool) :
    ∀ (l : PyStr) (c : Char), c ∈ l → p c = false → c ∈ l.dropWhile p := by
  intro l
  induction l with
  | nil => intro c hc; simp at hc
  | cons x t ih =>
    intro c hc hpc
    rw [List.dropWhile_cons]
    by_cases hx : p x = true
    · rw [if_pos hx]
      rcases List.mem_cons.mp hc with rfl | hc2
      · rw [hpc] at hx
        exact absurd hx (by simp)
      · exact ih c hc2 hpc
    · rw [if_neg hx]
      exact hc

theorem pyStrip_ne_nil_of_mem (s : PyStr) (c : Char) (hc : c ∈ s)
    (hpc : pyIsSpace c = false) : pyStrip s ≠ [] := by
  have h1 : c ∈ s.dropWhile pyIsSpace := mem_dropWhile_of_false _ s c hc hpc
  have h2 : c ∈ (s.dropWhile pyIsSpace).reverse := List.mem_reverse.mpr h1
  have h3 : c ∈ (s.dropWhile pyIsSpace).reverse.dropWhile pyIsSpace :=
    mem_dropWhile_of_false _ _ c h2 hpc
  exact List.ne_nil_of_mem (List.mem_reverse.mpr h3)

theorem pyStrip_subset (s : PyStr) : pyStrip s ⊆ s := by
  intro c hc
  unfold pyStrip at hc
  rw [List.mem_reverse] at hc
  have h1 := (List.dropWhile_suffix pyIsSpace).subset hc
  rw [List.mem_reverse] at h1
  exact (List.dropWhile_suffix pyIsSpace).subset h1

theorem pyStrip_exists_nonspace (s : PyStr) (h : pyStrip s ≠ []) :
    ∃ c, c ∈ s ∧ pyIsSpace c = false := by
  obtain ⟨c, t, he⟩ := List.exists_cons_of_ne_nil h
  have hhead : (pyStrip s).head? = some c := by rw [he]; rfl
  have hf := pyStrip_head_false s c hhead
  have hm : c ∈ pyStrip s := by rw [he]; simp
  exact ⟨c, pyStrip_subset s hm, hf⟩

theorem joinSep_mem_head (sep x : PyStr) (xs : List PyStr) (c : Char) (hc : c ∈ x) :
    c ∈ joinSep sep (x :: xs) := by
  cases xs with
  | nil => exact hc
  | cons y rest =>
    show c ∈ x ++ sep ++ joinSep sep (y :: rest)
    simp [hc]

theorem keptRows_strip_ne (rows : List (List PyStr)) (r : PyStr)
    (hr : r ∈ keptRows rows) : pyStrip r ≠ [] := by
  have hp := (List.mem_filter.mp hr).2
  intro hcon
  rw [hcon] at hp
  simp at hp

theorem htmlTextParts_mem (datas : List PyStr) (t : PyStr)
    (ht : t ∈ htmlTextParts datas) : pyStrip t = t ∧ t ≠ [] := by
  obtain ⟨hmem, hpred⟩ := List.mem_filter.mp ht
  obtain ⟨d, hd, rfl⟩ := List.mem_map.mp hmem
  refine ⟨pyStrip_idem d, ?_⟩
  intro hcon
  rw [hcon] at hpred
  simp at hpred

/-! ### Invariants of the remaining extractor loops -/

theorem trimParaSegs_props (paras : List PyStr) :
    ∀ off : Nat,
      (∀ s ∈ trimParaSegs paras off,
        pyStrip s.text ≠ [] ∧ s.char_start ≤ s.char_end ∧ ((off : Int) ≤ s.char_start)) ∧
      List.Pairwise (fun a b => a.char_start ≤ b.char_start) (trimParaSegs paras off) := by
  induction paras with
  | nil =>
    intro off
    exact ⟨by intro s hs; simp [trimParaSegs] at hs, by simp [trimParaSegs]⟩
  | cons para rest ih =>
    intro off
    by_cases hsp : pyStrip para = []
    · simp only [trimParaSegs, if_pos hsp]
      exact ih off
    · simp only [trimParaSegs, if_neg hsp]
      constructor
      · intro s hs
        rcases List.mem_cons.mp hs with rfl | h
        · refine ⟨?_, ?_, le_refl _⟩
          · show pyStrip (pyStrip para) ≠ []
            rw [pyStrip_idem]
            exact hsp
          · show ((off : Nat) : Int) ≤ ((off + (pyStrip para).length : Nat) : Int)
            push_cast
            omega
        · obtain ⟨h1, h2, h3⟩ := (ih (off + para.length + 2)).1 s h
          exact ⟨h1, h2, by push_cast at h3 ⊢; omega⟩
      · rw [List.pairwise_cons]
        refine ⟨?_, (ih (off + para.length + 2)).2⟩
        intro b hb
        have h3 := ((ih (off + para.length + 2)).1 b hb).2.2
        show ((off : Nat) : Int) ≤ b.char_start
        push_cast at h3 ⊢
        omega

theorem docxLoop_props (paras : List PyStr) :
    ∀ off : Nat,
      (∀ s ∈ docxLoop paras off,
        pyStrip s.text ≠ [] ∧ s.char_start ≤ s.char_end ∧ ((off : Int) ≤ s.char_start)) ∧
      List.Pairwise (fun a b => a.char_start ≤ b.char_start) (docxLoop paras off) := by
  induction paras with
  | nil =>
    intro off
    exact ⟨by intro s hs; simp [docxLoop] at hs, by simp [docxLoop]⟩
  | cons p rest ih =>
    intro off
    by_cases hsp : pyStrip p = []
    · simp only [docxLoop, if_pos hsp]
      exact ih off
    · simp only [docxLoop, if_neg hsp]
      constructor
      · intro s hs
        rcases List.mem_cons.mp hs with rfl | h
        · refine ⟨?_, ?_, le_refl _⟩
          · show pyStrip (pyStrip p) ≠ []
            rw [pyStrip_idem]
            exact hsp
          · show ((off : Nat) : Int) ≤ ((off + (pyStrip p).length : Nat) : Int)
            push_cast
            omega
        · obtain ⟨h1, h2, h3⟩ := (ih (off + (pyStrip p).length + 2)).1 s h
          exact ⟨h1, h2, by push_cast at h3 ⊢; omega⟩
      · rw [List.pairwise_cons]
        refine ⟨?_, (ih (off + (pyStrip p).length + 2)).2⟩
        intro b hb
        have h3 := ((ih (off + (pyStrip p).length + 2)).1 b hb).2.2
        show ((off : Nat) : Int) ≤ b.char_start
        push_cast at h3 ⊢
        omega

theorem pptxLoop_props (slides : List (List PyStr)) :
    ∀ num off : Nat,
      (∀ s ∈ pptxLoop slides num off,
        pyStrip s.text ≠ [] ∧ s.char_start ≤ s.char_end ∧ ((off : Int) ≤ s.char_start)) ∧
      List.Pairwise (fun a b => a.char_start ≤ b.char_start) (pptxLoop slides num off) := by
  induction slides with
  | nil =>
    intro num off
    exact ⟨by intro s hs; simp [pptxLoop] at hs, by simp [pptxLoop]⟩
  | cons slide rest ih =>
    intro num off
    by_cases hsp : pyStrip (joinSep ['\n'] slide) = []
    · simp only [pptxLoop, if_pos hsp]
      exact ih (num + 1) off
    · simp only [pptxLoop, if_neg hsp]
      constructor
      · intro s hs
        rcases List.mem_cons.mp hs with rfl | h
        · refine ⟨?_, ?_, le_refl _⟩
          · show pyStrip (pyStrip (joinSep ['\n'] slide)) ≠ []
            rw [pyStrip_idem]
            exact hsp
          · show ((off : Nat) : Int) ≤
              ((off + (pyStrip (joinSep ['\n'] slide)).length : Nat) : Int)
            push_cast
            omega
        · obtain ⟨h1, h2, h3⟩ :=
            (ih (num + 1) (off + (pyStrip (joinSep ['\n'] slide)).length + 2)).1 s h
          exact ⟨h1, h2, by push_cast at h3 ⊢; omega⟩
      · rw [List.pairwise_cons]
        refine ⟨?_, (ih (num + 1) (off + (pyStrip (joinSep ['\n'] slide)).length + 2)).2⟩
        intro b hb
        have h3 :=
          ((ih (num + 1) (off + (pyStrip (joinSep ['\n'] slide)).length + 2)).1 b hb).2.2
        show ((off : Nat) : Int) ≤ b.char_start
        push_cast at h3 ⊢
        omega

theorem xlsxLoop_props (sheets : List (PyStr × List (List PyStr))) :
    ∀ num off : Nat,
      (∀ s ∈ xlsxLoop sheets num off,
        pyStrip s.text ≠ [] ∧ s.char_start ≤ s.char_end ∧ ((off : Int) ≤ s.char_start)) ∧
      List.Pairwise (fun a b => a.char_start ≤ b.char_start) (xlsxLoop sheets num off) := by
  induction sheets with
  | nil =>
    intro num off
    exact ⟨by intro s hs; simp [xlsxLoop] at hs, by simp [xlsxLoop]⟩
  | cons sheet rest ih =>
    intro num off
    obtain ⟨name, rows⟩ := sheet
    by_cases hk : keptRows rows = []
    · simp only [xlsxLoop, if_pos hk]
      exact ih (num + 1) off
    · simp only [xlsxLoop, if_neg hk]
      constructor
      · intro s hs
        rcases List.mem_cons.mp hs with rfl | h
        · refine ⟨?_, ?_, le_refl _⟩
          · apply pyStrip_ne_nil_of_mem _ 'S' _ (by decide)
            have hS : ('S' : Char) ∈ "Sheet: ".toList := by decide
            exact List.mem_append_left _ (List.mem_append_left _ hS)
          · show ((off : Nat) : Int) ≤
              ((off + (joinSep ['\n'] (keptRows rows)).length : Nat) : Int)
            push_cast
            omega
        · obtain ⟨h1, h2, h3⟩ :=
            (ih (num + 1) (off + (joinSep ['\n'] (keptRows rows)).length + 2)).1 s h
          exact ⟨h1, h2, by push_cast at h3 ⊢; omega⟩
      · rw [List.pairwise_cons]
        refine ⟨?_, (ih (num + 1) (off + (joinSep ['\n'] (keptRows rows)).length + 2)).2⟩
        intro b hb
        have h3 :=
          ((ih (num + 1) (off + (joinSep ['\n'] (keptRows rows)).length + 2)).1 b hb).2.2
        show ((off : Nat) : Int) ≤ b.char_start
        push_cast at h3 ⊢
        omega

theorem extract_from_csv_props (rows : List (List PyStr)) :
    (∀ s ∈ extract_from_csv rows, pyStrip s.text ≠ [] ∧ s.char_start ≤ s.char_end) ∧
    List.Pairwise (fun a b => a.char_start ≤ b.char_start) (extract_from_csv rows) := by
  unfold extract_from_csv
  by_cases h : keptRows rows = []
  · rw [if_pos h]
    exact ⟨by intro s hs; simp at hs, by simp⟩
  · rw [if_neg h]
    constructor
    · intro s hs
      rw [List.mem_singleton] at hs
      subst hs
      constructor
      · obtain ⟨r0, rs, he⟩ := List.exists_cons_of_ne_nil h
        have hr0 : r0 ∈ keptRows rows := by rw [he]; exact List.mem_cons_self r0 rs
        obtain ⟨c, hcmem, hcf⟩ := pyStrip_exists_nonspace r0 (keptRows_strip_ne rows r0 hr0)
        apply pyStrip_ne_nil_of_mem _ c _ hcf
        show c ∈ joinSep ['\n'] (keptRows rows)
        rw [he]
        exact joinSep_mem_head ['\n'] r0 rs c hcmem
      · show (0 : Int) ≤ ((joinSep ['\n'] (keptRows rows)).length : Int)
        exact Int.natCast_nonneg _
    · exact List.pairwise_singleton _ _

theorem htmlLoop_props (parts : List PyStr) :
    ∀ off : Nat,
      (∀ s ∈ htmlLoop parts off,
        s.text ∈ parts ∧ s.text ≠ [] ∧ s.char_start ≤ s.char_end ∧
          ((off : Int) ≤ s.char_start)) ∧
      List.Pairwise (fun a b => a.char_start ≤ b.char_start) (htmlLoop parts off) := by
  induction parts with
  | nil =>
    intro off
    exact ⟨by intro s hs; simp [htmlLoop] at hs, by simp [htmlLoop]⟩
  | cons t rest ih =>
    intro off
    by_cases ht : t = []
    · simp only [htmlLoop, if_pos ht]
      constructor
      · intro s hs
        obtain ⟨h1, h2, h3, h4⟩ := (ih off).1 s hs
        exact ⟨List.mem_cons_of_mem t h1, h2, h3, h4⟩
      · exact (ih off).2
    · simp only [htmlLoop, if_neg ht]
      constructor
      · intro s hs
        rcases List.mem_cons.mp hs with rfl | h
        · refine ⟨by simp, ht, ?_, le_refl _⟩
          show ((off : Nat) : Int) ≤ ((off + t.length : Nat) : Int)
          push_cast
          omega
        · obtain ⟨h1, h2, h3, h4⟩ := (ih (off + t.length + 2)).1 s h
          exact ⟨List.mem_cons_of_mem t h1, h2, h3, by push_cast at h4 ⊢; omega⟩
      · rw [List.pairwise_cons]
        refine ⟨?_, (ih (off + t.length + 2)).2⟩
        intro b hb
        have h4 := ((ih (off + t.length + 2)).1 b hb).2.2.2
        show ((off : Nat) : Int) ≤ b.char_start
        push_cast at h4 ⊢
        omega

/-! ### Claim C2 -/

/-- C2: for every extractor routine of the repository (the PDF extractor of
document_processor.py, the TXT, DOCX, Markdown, PPTX, XLSX, CSV and HTML
extractors, and the PDF extractor of pdf_processor.py), every emitted
segment has text that is non-empty after trimming, satisfies char_start at
most char_end, and the segments of one document appear in non-decreasing
char_start order, across the page boundaries of the dual-accumulator PDF
loop included. -/
theorem spec_c2 :
    ((∀ pages s, s ∈ extract_from_pdf pages →
        pyStrip s.text ≠ [] ∧ s.char_start ≤ s.char_end) ∧
      ∀ pages, List.Pairwise (fun a b => a.char_start ≤ b.char_start)
        (extract_from_pdf pages)) ∧
    ((∀ content s, s ∈ extract_from_txt content →
        pyStrip s.text ≠ [] ∧ s.char_start ≤ s.char_end) ∧
      ∀ content, List.Pairwise (fun a b => a.char_start ≤ b.char_start)
        (extract_from_txt content)) ∧
    ((∀ paras s, s ∈ extract_from_docx paras →
        pyStrip s.text ≠ [] ∧ s.char_start ≤ s.char_end) ∧
      ∀ paras, List.Pairwise (fun a b => a.char_start ≤ b.char_start)
        (extract_from_docx paras)) ∧
    ((∀ content s, s ∈ extract_from_markdown content →
        pyStrip s.text ≠ [] ∧ s.char_start ≤ s.char_end) ∧
      ∀ content, List.Pairwise (fun a b => a.char_start ≤ b.char_start)
        (extract_from_markdown content)) ∧
    ((∀ slides s, s ∈ extract_from_pptx slides →
        pyStrip s.text ≠ [] ∧ s.char_start ≤ s.char_end) ∧
      ∀ slides, List.Pairwise (fun a b => a.char_start ≤ b.char_start)
        (extract_from_pptx slides)) ∧
    ((∀ sheets s, s ∈ extract_from_xlsx sheets →
        pyStrip s.text ≠ [] ∧ s.char_start ≤ s.char_end) ∧
      ∀ sheets, List.Pairwise (fun a b => a.char_start ≤ b.char_start)
        (extract_from_xlsx sheets)) ∧
    ((∀ rows s, s ∈ extract_from_csv rows →
        pyStrip s.text ≠ [] ∧ s.char_start ≤ s.char_end) ∧
      ∀ rows, List.Pairwise (fun a b => a.char_start ≤ b.char_start)
        (extract_from_csv rows)) ∧
    ((∀ datas s, s ∈ extract_from_html datas →
        pyStrip s.text ≠ [] ∧ s.char_start ≤ s.char_end) ∧
      ∀ datas, List.Pairwise (fun a b => a.char_start ≤ b.char_start)
        (extract_from_html datas)) ∧
    ((∀ pages s, s ∈ pdfProcessorExtract pages →
        pyStrip s.text ≠ [] ∧ s.char_start ≤ s.char_end) ∧
      ∀ pages, List.Pairwise (fun a b => a.char_start ≤ b.char_start)
        (pdfProcessorExtract pages)) := by
  refine ⟨⟨?_, ?_⟩, ⟨?_, ?_⟩, ⟨?_, ?_⟩, ⟨?_, ?_⟩, ⟨?_, ?_⟩, ⟨?_, ?_⟩, ⟨?_, ?_⟩,
    ⟨?_, ?_⟩, ⟨?_, ?_⟩⟩
  · intro pages s hs
    obtain ⟨h1, h2, h3, _⟩ := (extractPdfLoop_props pages 1 0).1 s hs
    rw [h1] at *
    exact ⟨h2, h3⟩
  · intro pages
    exact (extractPdfLoop_props pages 1 0).2
  · intro content s hs
    obtain ⟨h1, h2, _⟩ := (trimParaSegs_props (splitNN content) 0).1 s hs
    exact ⟨h1, h2⟩
  · intro content
    exact (trimParaSegs_props (splitNN content) 0).2
  · intro paras s hs
    obtain ⟨h1, h2, _⟩ := (docxLoop_props paras 0).1 s hs
    exact ⟨h1, h2⟩
  · intro paras
    exact (docxLoop_props paras 0).2
  · intro content s hs
    obtain ⟨h1, h2, _⟩ := (trimParaSegs_props (splitNN content) 0).1 s hs
    exact ⟨h1, h2⟩
  · intro content
    exact (trimParaSegs_props (splitNN content) 0).2
  · intro slides s hs
    obtain ⟨h1, h2, _⟩ := (pptxLoop_props slides 1 0).1 s hs
    exact ⟨h1, h2⟩
  · intro slides
    exact (pptxLoop_props slides 1 0).2
  · intro sheets s hs
    obtain ⟨h1, h2, _⟩ := (xlsxLoop_props sheets 1 0).1 s hs
    exact ⟨h1, h2⟩
  · intro sheets
    exact (xlsxLoop_props sheets 1 0).2
  · intro rows s hs
    exact (extract_from_csv_props rows).1 s hs
  · intro rows
    exact (extract_from_csv_props rows).2
  · intro datas s hs
    obtain ⟨hmem, hne, hle, _⟩ := (htmlLoop_props (htmlTextParts datas) 0).1 s hs
    obtain ⟨hfix, _⟩ := htmlTextParts_mem datas s.text hmem
    rw [hfix]
    exact ⟨hne, hle⟩
  · intro datas
    exact (htmlLoop_props (htmlTextParts datas) 0).2
  · intro pages s hs
    obtain ⟨h1, h2, h3, _⟩ := (extractPdfLoop_props pages 1 0).1 s hs
    rw [h1] at *
    exact ⟨h2, h3⟩
  · intro pages
    exact (extractPdfLoop_props pages 1 0).2

/-- Witness for C2 at a concrete two-page document. -/
theorem spec_c2_witness :
    ((extract_from_pdf c2Pages).headI ∈ extract_from_pdf c2Pages) ∧
    ((extract_from_pdf c2Pages).headI.char_start ≤ (extract_from_pdf c2Pages).headI.char_end) ∧
    List.Pairwise (fun a b => a.char_start ≤ b.char_start) (extract_from_pdf c2Pages) := by
  exact ⟨by decide, (spec_c2.1.1 c2Pages (extract_from_pdf c2Pages).headI (by decide)).2,
    spec_c2.1.2 c2Pages⟩

/-! ### Claim C4 -/

theorem chunkFrame_mergeInto (a b : DocumentChunk) :
    chunkFrame (mergeInto a b) = chunkFrame a := rfl

theorem map_chunkFrame_set (l : List DocumentChunk) :
    ∀ (j : Nat) (v : DocumentChunk), chunkFrame v = chunkFrame (l.getD j default) →
      (l.set j v).map chunkFrame = l.map chunkFrame := by
  induction l with
  | nil => intro j v h; rfl
  | cons x t ih =>
    intro j v h
    cases j with
    | zero =>
      simp only [List.getD_cons_zero] at h
      simp only [List.set_cons_zero, List.map_cons, h]
    | succ n =>
      simp only [List.getD_cons_succ] at h
      simp only [List.set_cons_succ, List.map_cons, ih n v h]

theorem mergeHeapLoop_frame :
    ∀ (idxs : List Nat) (heap : List DocumentChunk) (front : List Nat) (j : Nat),
      ((mergeHeapLoop idxs heap front j).1).map chunkFrame = heap.map chunkFrame := by
  intro idxs
  induction idxs with
  | nil => intro heap front j; rfl
  | cons i rest ih =>
    intro heap front j
    show ((if shouldMerge (heap.getD j default) (heap.getD i default) then
        mergeHeapLoop rest
          (heap.set j (mergeInto (heap.getD j default) (heap.getD i default))) front j
      else mergeHeapLoop rest heap (front ++ [j]) i).1).map chunkFrame = _
    by_cases h : shouldMerge (heap.getD j default) (heap.getD i default)
    · rw [if_pos h, ih]
      exact map_chunkFrame_set heap j _ (chunkFrame_mergeInto _ _)
    · rw [if_neg h, ih]

/-- C4, counterexample: on two overlapping chunks of the same page the
merge branch fires and the first input chunk object is mutated (its text
and char_end change), so the input list of chunk objects is not left
unchanged. -/
theorem spec_c4_counterexample :
    (merge_with_effects c4Input).2 ≠ c4Input ∧
    ((merge_with_effects c4Input).2.headI.char_end, (merge_with_effects c4Input).2.headI.text.length)
      = (12, 12) ∧
    (c4Input.headI.char_end, c4Input.headI.text.length) = (10, 10) := by
  decide

theorem getD_set_ne (l : List DocumentChunk) (j i : Nat) (v : DocumentChunk)
    (h : j ≠ i) : (l.set j v).getD i default = l.getD i default := by
  rw [List.getD_eq_getElem?_getD, List.getD_eq_getElem?_getD, List.getElem?_set_ne h]

theorem mergeHeapLoop_front_subset :
    ∀ (idxs : List Nat) (heap : List DocumentChunk) (front : List Nat) (j i : Nat),
      i ∈ front → i ∈ (mergeHeapLoop idxs heap front j).2 := by
  intro idxs
  induction idxs with
  | nil =>
    intro heap front j i hi
    exact List.mem_append_left _ hi
  | cons k rest ih =>
    intro heap front j i hi
    show i ∈ (if shouldMerge (heap.getD j default) (heap.getD k default) then
        mergeHeapLoop rest
          (heap.set j (mergeInto (heap.getD j default) (heap.getD k default))) front j
      else mergeHeapLoop rest heap (front ++ [j]) k).2
    by_cases h : shouldMerge (heap.getD j default) (heap.getD k default)
    · rw [if_pos h]
      exact ih _ front j i hi
    · rw [if_neg h]
      exact ih heap (front ++ [j]) k i (List.mem_append_left _ hi)

theorem mergeHeapLoop_j_mem :
    ∀ (idxs : List Nat) (heap : List DocumentChunk) (front : List Nat) (j : Nat),
      j ∈ (mergeHeapLoop idxs heap front j).2 := by
  intro idxs
  induction idxs with
  | nil =>
    intro heap front j
    exact List.mem_append_right _ (by simp)
  | cons k rest ih =>
    intro heap front j
    show j ∈ (if shouldMerge (heap.getD j default) (heap.getD k default) then
        mergeHeapLoop rest
          (heap.set j (mergeInto (heap.getD j default) (heap.getD k default))) front j
      else mergeHeapLoop rest heap (front ++ [j]) k).2
    by_cases h : shouldMerge (heap.getD j default) (heap.getD k default)
    · rw [if_pos h]
      exact ih _ front j
    · rw [if_neg h]
      exact mergeHeapLoop_front_subset rest heap (front ++ [j]) k j
        (List.mem_append_right _ (by simp))

theorem mergeHeapLoop_untouched :
    ∀ (idxs : List Nat) (heap : List DocumentChunk) (front : List Nat) (j i : Nat),
      i ∉ (mergeHeapLoop idxs heap front j).2 →
      ((mergeHeapLoop idxs heap front j).1).getD i default = heap.getD i default := by
  intro idxs
  induction idxs with
  | nil =>
    intro heap front j i hi
    rfl
  | cons k rest ih =>
    intro heap front j i hi
    show ((if shouldMerge (heap.getD j default) (heap.getD k default) then
        mergeHeapLoop rest
          (heap.set j (mergeInto (heap.getD j default) (heap.getD k default))) front j
      else mergeHeapLoop rest heap (front ++ [j]) k).1).getD i default = _
    simp only [mergeHeapLoop] at hi
    by_cases h : shouldMerge (heap.getD j default) (heap.getD k default)
    · rw [if_pos h]
      rw [if_pos h] at hi
      have hji : j ≠ i := by
        intro he
        subst he
        exact hi (mergeHeapLoop_j_mem rest _ front j)
      rw [ih _ front j i hi]
      exact getD_set_ne heap j i _ hji
    · rw [if_neg h]
      rw [if_neg h] at hi
      exact ih heap (front ++ [j]) k i hi

/-- C4 (amended): running the merger never changes any field of any input
chunk object other than text and char_end (chunk_id, page_number,
char_start, document_id, chunk_index and the metadata mapping of every
input chunk are exactly preserved), and any input chunk whose final state
is not among the returned merged chunks is left entirely unchanged. -/
theorem spec_c4_amended (cs : List DocumentChunk) :
    ((merge_with_effects cs).2).map chunkFrame = cs.map chunkFrame ∧
    ∀ i, (merge_with_effects cs).2.getD i default ∉ (merge_with_effects cs).1 →
      (merge_with_effects cs).2.getD i default = cs.getD i default := by
  unfold merge_with_effects
  cases hs : sortIndices cs with
  | nil => exact ⟨rfl, fun i h => rfl⟩
  | cons j rest =>
    refine ⟨mergeHeapLoop_frame rest cs [] j, ?_⟩
    intro i h
    have hi : i ∉ (mergeHeapLoop rest cs [] j).2 := fun hmem =>
      h (List.mem_map_of_mem _ hmem)
    exact mergeHeapLoop_untouched rest cs [] j i hi

/-- Witness for the amended C4: at the two-chunk overlapping input, the
absorbed second chunk is not among the returned chunks and is handed back
to the caller unchanged. -/
theorem spec_c4_amended_witness :
    ((merge_with_effects c4Input).2.getD 1 default ∉ (merge_with_effects c4Input).1) ∧
    (merge_with_effects c4Input).2.getD 1 default = c4Input.getD 1 default := by
  exact ⟨by decide, (spec_c4_amended c4Input).2 1 (by decide)⟩

/-! ### Merger stability lemmas (towards claim C7) -/

theorem mergeInto_page (a b : DocumentChunk) :
    (mergeInto a b).page_number = a.page_number := rfl

theorem mergeInto_start (a b : DocumentChunk) :
    (mergeInto a b).char_start = a.char_start := rfl

theorem mergeInto_end (a b : DocumentChunk) :
    (mergeInto a b).char_end = b.char_end := rfl

theorem mergeInto_textLength (a b : DocumentChunk) :
    (mergeInto a b).text.length = a.text.length + (b.text.length - (overlapSize a b).toNat) := by
  simp [mergeInto]

/-- A stable pair never satisfies the merge test. -/
theorem noMerge_of_good (a b : DocumentChunk) (hg : GoodPair a b) : ¬ shouldMerge a b := by
  intro hm
  obtain ⟨hpage, hlt, hov⟩ := hm
  rcases hg ⟨hpage, hlt⟩ with h | ⟨h0, hend⟩
  · unfold overlapSize at hov
    omega
  · unfold overlapSize at hov
    omega

/-- When the walk retains b next to a, the failed merge test makes the
pair stable, provided b is still a well-formed input chunk. -/
theorem good_of_notMerge (a b : DocumentChunk) (hb : WFChunk b)
    (h : ¬ shouldMerge a b) : GoodPair a b := by
  intro hcond
  have h2 : ¬(2 * overlapSize a b > (b.text.length : Int)) := fun hov =>
    h ⟨hcond.1, hcond.2, hov⟩
  unfold WFChunk at hb
  unfold overlapSize at h2
  omega

/-- Absorbing a further well-formed chunk into b keeps the pair (a, b)
stable: the text can only grow while the reachable overlap with a cannot. -/
theorem good_mergeInto (x a b : DocumentChunk) (hg : GoodPair x a) (hwb : WFChunk b)
    (hkey : mergeKey a b) (hm : shouldMerge a b) : GoodPair x (mergeInto a b) := by
  obtain ⟨hpage, hlt, hov⟩ := hm
  intro hcond
  have hcpage : a.page_number = x.page_number := by
    rw [← mergeInto_page a b]
    exact hcond.1
  have hclt : a.char_start < x.char_end := by
    rw [← mergeInto_start a b]
    exact hcond.2
  rcases hg ⟨hcpage, hclt⟩ with h | ⟨h0, hend⟩
  · left
    rw [mergeInto_start, mergeInto_textLength]
    have hov_le : overlapSize a b ≤ (b.text.length : Int) := by
      unfold overlapSize
      unfold WFChunk at hwb
      omega
    unfold overlapSize at hov hov_le
    omega
  · exfalso
    have hstart : a.char_start ≤ b.char_start := by
      rcases hkey with hk | ⟨hk1, hk2⟩
      · rw [hpage] at hk
        exact absurd hk (lt_irrefl _)
      · exact hk2
    omega

/-- Replacing the open pair (last, cur) of a sorted walk state by the
merged chunk keeps the walk state sorted: the comparison only reads the
page and start fields, which merging preserves. -/
theorem sorted_merge_step (front : List DocumentChunk) (last cur : DocumentChunk)
    (rest : List DocumentChunk)
    (h : List.Sorted mergeKey (front ++ last :: cur :: rest)) :
    List.Sorted mergeKey (front ++ mergeInto last cur :: rest) := by
  have hp : List.Pairwise mergeKey (front ++ last :: cur :: rest) := h
  obtain ⟨hf, hl, hcross⟩ := List.pairwise_append.mp hp
  obtain ⟨hlast, hl2⟩ := List.pairwise_cons.mp hl
  obtain ⟨hcur, hrest⟩ := List.pairwise_cons.mp hl2
  show List.Pairwise mergeKey (front ++ mergeInto last cur :: rest)
  rw [List.pairwise_append]
  refine ⟨hf, ?_, ?_⟩
  · rw [List.pairwise_cons]
    exact ⟨fun b hb => hlast b (List.mem_cons_of_mem cur hb), hrest⟩
  · intro a ha b hb
    rcases List.mem_cons.mp hb with hb | hb
    · subst hb
      exact hcross a ha last (by simp)
    · exact hcross a ha b (by simp [hb])

/-- Extending the open chunk keeps the chain of stable pairs intact. -/
theorem chain_good_merge (front : List DocumentChunk) (last cur : DocumentChunk)
    (hch : List.Chain' GoodPair (front ++ [last]))
    (hwb : WFChunk cur) (hkey : mergeKey last cur) (hm : shouldMerge last cur) :
    List.Chain' GoodPair (front ++ [mergeInto last cur]) := by
  rw [List.chain'_append] at hch ⊢
  obtain ⟨h1, h2, h3⟩ := hch
  refine ⟨h1, List.chain'_singleton _, ?_⟩
  intro x hx y hy
  simp only [List.head?_cons, Option.mem_some_iff] at hy
  subst hy
  exact good_mergeInto x last cur (h3 x hx last (by simp)) hwb hkey hm

/-- Walk invariant: starting from a sorted state whose retained prefix is
chained by stable pairs, the merge walk returns a sorted list chained by
stable pairs. -/
theorem mergeLoop_invariant :
    ∀ (rest front : List DocumentChunk) (last : DocumentChunk),
      (∀ d ∈ rest, WFChunk d) →
      List.Sorted mergeKey (front ++ last :: rest) →
      List.Chain' GoodPair (front ++ [last]) →
      List.Sorted mergeKey (mergeLoop rest front last) ∧
        List.Chain' GoodPair (mergeLoop rest front last) := by
  intro rest
  induction rest with
  | nil =>
    intro front last hwf hs hch
    exact ⟨hs, hch⟩
  | cons cur rest ih =>
    intro front last hwf hs hch
    have hwf2 : ∀ d ∈ rest, WFChunk d := fun d hd => hwf d (List.mem_cons_of_mem cur hd)
    have hwcur : WFChunk cur := hwf cur (by simp)
    by_cases hm : shouldMerge last cur
    · simp only [mergeLoop, if_pos hm]
      apply ih front (mergeInto last cur) hwf2
      · exact sorted_merge_step front last cur rest hs
      · have hkey : mergeKey last cur := by
          have hp : List.Pairwise mergeKey (front ++ last :: cur :: rest) := hs
          have hl := (List.pairwise_append.mp hp).2.1
          exact (List.pairwise_cons.mp hl).1 cur (by simp)
        exact chain_good_merge front last cur hch hwcur hkey hm
    · simp only [mergeLoop, if_neg hm]
      apply ih (front ++ [last]) cur hwf2
      · rw [List.append_assoc]
        simpa using hs
      · rw [List.chain'_append]
        refine ⟨hch, List.chain'_singleton _, ?_⟩
        intro x hx y hy
        simp only [List.head?_cons, Option.mem_some_iff] at hy
        subst hy
        rw [List.getLast?_concat] at hx
        simp only [Option.mem_some_iff] at hx
        subst hx
        exact good_of_notMerge last cur hwcur hm

/-- On a list chained by stable pairs the walk changes nothing. -/
theorem mergeLoop_id :
    ∀ (rest front : List DocumentChunk) (last : DocumentChunk),
      List.Chain' GoodPair (front ++ last :: rest) →
      mergeLoop rest front last = front ++ last :: rest := by
  intro rest
  induction rest with
  | nil => intro front last h; rfl
  | cons cur rest ih =>
    intro front last hch
    have hgood : GoodPair last cur := by
      have hl := (List.chain'_append.mp hch).2.1
      exact (List.chain'_cons.mp hl).1
    simp only [mergeLoop, if_neg (noMerge_of_good last cur hgood)]
    rw [ih (front ++ [last]) cur (by rw [List.append_assoc]; simpa using hch)]
    simp

theorem mergeCore_props (l : List DocumentChunk) (hwf : ∀ c ∈ l, WFChunk c)
    (hs : List.Sorted mergeKey l) :
    List.Sorted mergeKey (mergeCore l) ∧ List.Chain' GoodPair (mergeCore l) := by
  cases l with
  | nil => exact ⟨List.sorted_nil, List.chain'_nil⟩
  | cons c rest =>
    apply mergeLoop_invariant rest [] c
    · exact fun d hd => hwf d (List.mem_cons_of_mem c hd)
    · simpa using hs
    · exact List.chain'_singleton c

theorem mergeCore_id (l : List DocumentChunk) (hch : List.Chain' GoodPair l) :
    mergeCore l = l := by
  cases l with
  | nil => rfl
  | cons c rest =>
    show mergeLoop rest [] c = c :: rest
    have h := mergeLoop_id rest [] c (by simpa using hch)
    simpa using h

/-! ### Claim C7 -/

/-- C7, counterexample: on this three-chunk list (the middle chunk has a
span of 1 but 40 characters of text, which the claim quantifier over every
chunk list admits) the first pass produces two chunks that the second pass
merges into one, so the merger is not idempotent as claimed. -/
theorem spec_c7_counterexample :
    merge_overlapping_chunks (merge_overlapping_chunks c7Input) ≠
      merge_overlapping_chunks c7Input := by
  decide

/-- C7 (amended): the merger is idempotent on every chunk list whose
chunks satisfy char_end = char_start + len(text), as all chunks fresh from
the chunker do; a second pass changes nothing. -/
theorem spec_c7_amended (cs : List DocumentChunk) (hwf : ∀ c ∈ cs, WFChunk c) :
    merge_overlapping_chunks (merge_overlapping_chunks cs) = merge_overlapping_chunks cs := by
  have hwfs : ∀ c ∈ sortChunks cs, WFChunk c := fun c hc =>
    hwf c ((List.perm_insertionSort mergeKey cs).mem_iff.mp hc)
  have hsorted : List.Sorted mergeKey (sortChunks cs) :=
    List.sorted_insertionSort mergeKey cs
  have hprops := mergeCore_props (sortChunks cs) hwfs hsorted
  have hMsort : sortChunks (merge_overlapping_chunks cs) = merge_overlapping_chunks cs :=
    List.Sorted.insertionSort_eq hprops.1
  show mergeCore (sortChunks (merge_overlapping_chunks cs)) = merge_overlapping_chunks cs
  rw [hMsort]
  exact mergeCore_id _ hprops.2

/-- Witness for the amended C7: a well-formed two-chunk input on which a
merge fires in the first pass and the second pass is the identity. -/
theorem spec_c7_amended_witness :
    (∀ c ∈ c7WfInput, WFChunk c) ∧
    merge_overlapping_chunks (merge_overlapping_chunks c7WfInput) =
      merge_overlapping_chunks c7WfInput := by
  exact ⟨by decide, spec_c7_amended c7WfInput (by decide)⟩

end SDA
